import Mathlib

/-!
Verification of the subdomain-enumeration engine
(`subdomain_enumeration.py`, class `SubdomainEnumerator`).

Strings are modelled by Lean `String`.  The outcome of the external
network calls made by one probe (DNS resolution via
`socket.gethostbyname`, the HTTP fetch and the HTTPS fetch via
`session.get`) is modelled by an environment record `ProbeEnv`: each
call either succeeds, fails with its expected exception class
(`socket.gaierror` for resolution, `requests.RequestException` for a
fetch), or raises an unexpected exception (anything else, caught by the
probe's outer `except Exception` handler).
-/

/-- Outcome of `socket.gethostbyname(full_subdomain)`:
success with an address string, `socket.gaierror`, or any other
(unexpected) exception. -/
inductive ResolveOutcome where
  | ok (ip : String)
  | gaierror
  | unexpected
deriving DecidableEq, Repr

/-- Outcome of one `session.get` call: a final response carrying a
status code and an optional `Server` header, a
`requests.RequestException`, or any other (unexpected) exception. -/
inductive FetchOutcome where
  | ok (status : Nat) (serverHeader : Option String)
  | reqError
  | unexpected
deriving DecidableEq, Repr

/-- The environment one probe runs against: the outcome each of its
three external calls would have. -/
structure ProbeEnv where
  resolve : ResolveOutcome
  http : FetchOutcome
  https : FetchOutcome
deriving DecidableEq, Repr

/-- The `result` dict built by `check_subdomain` (the `discovered_at`
timestamp field is omitted: no claim concerns it). -/
structure ProbeResult where
  subdomain : String
  http_accessible : Bool
  https_accessible : Bool
  http_status : Option Nat
  https_status : Option Nat
  ip_address : Option String
  server : Option String
deriving DecidableEq, Repr

/-- The lock-protected mutable state of a `SubdomainEnumerator`:
the `discovered_subdomains` list and the `tested`/`discovered`/`errors`
counters of `self.stats` (`start_time` is omitted: no claim concerns
it). -/
structure EnumState where
  discovered_subdomains : List ProbeResult
  tested : Nat
  discovered : Nat
  errors : Nat
deriving DecidableEq, Repr

/-- The state right after `__init__`: empty list, all counters zero. -/
def initState : EnumState :=
  { discovered_subdomains := [], tested := 0, discovered := 0, errors := 0 }

/-- Python truthiness test `not result['server'] or result['server'] == 'Unknown'`
used before overwriting `server` from the HTTPS response (line 133):
`None`, the empty string and the placeholder `'Unknown'` all trigger the
fallback. -/
def serverNeedsFallback : Option String → Bool
  | none => true
  | some s => s = "" || s = "Unknown"

/-- `SubdomainEnumerator.check_subdomain` (lines 90-162), as a function
of the probe environment: builds the `result` dict, increments
`tested`, resolves, fetches HTTP then HTTPS, and on success appends the
result to `discovered_subdomains` and increments `discovered`.
Expected failures short-circuit (`return None`) or are skipped
(`pass`); an unexpected exception anywhere is caught by the outer
handler, which increments `errors` and falls through to `return None`. -/
def check_subdomain (env : ProbeEnv) (subdomain domain : String)
    (st : EnumState) : EnumState × Option ProbeResult :=
  let full_subdomain := subdomain ++ "." ++ domain
  let result : ProbeResult :=
    { subdomain := full_subdomain
      http_accessible := false
      https_accessible := false
      http_status := none
      https_status := none
      ip_address := none
      server := none }
  let st := { st with tested := st.tested + 1 }
  match env.resolve with
  | .gaierror => (st, none)
  | .unexpected => ({ st with errors := st.errors + 1 }, none)
  | .ok ip =>
    let result := { result with ip_address := some ip }
    match env.http with
    | .unexpected => ({ st with errors := st.errors + 1 }, none)
    | httpOut =>
      let result :=
        match httpOut with
        | .ok status hdr =>
            { result with
                http_accessible := true
                http_status := some status
                server := some (hdr.getD "Unknown") }
        | _ => result
      match env.https with
      | .unexpected => ({ st with errors := st.errors + 1 }, none)
      | httpsOut =>
        let result :=
          match httpsOut with
          | .ok status hdr =>
              let r := { result with
                https_accessible := true
                https_status := some status }
              if serverNeedsFallback r.server then
                { r with server := some (hdr.getD "Unknown") }
              else r
          | _ => result
        if result.http_accessible || result.https_accessible then
          ({ st with
              discovered_subdomains := st.discovered_subdomains ++ [result]
              discovered := st.discovered + 1 }, some result)
        else
          (st, none)

/-- Did name resolution succeed? -/
def resolveOk : ResolveOutcome → Bool
  | .ok _ => true
  | _ => false

/-- Did the fetch produce a final response? -/
def fetchOk : FetchOutcome → Bool
  | .ok _ _ => true
  | _ => false

/-- Does the probe running in this environment hit an unexpected
exception (one reaching the outer `except Exception` handler)?
The calls happen in order resolution, HTTP, HTTPS, and an unexpected
exception aborts the probe, so later calls only count once the earlier
ones went through an expected path. -/
def unexpectedHit (env : ProbeEnv) : Bool :=
  match env.resolve with
  | .unexpected => true
  | .gaierror => false
  | .ok _ =>
    match env.http with
    | .unexpected => true
    | _ =>
      match env.https with
      | .unexpected => true
      | _ => false

/-- The final value the local `result` dict of `check_subdomain` takes
on a probe that runs to the end of the `try` block (no unexpected
exception): address from resolution, then the HTTP update (lines
117-125), then the HTTPS update with the `Server` fallback (lines
127-136).  On environments where the probe aborts early the value is
unused by the theorems below. -/
def probeResultOf (env : ProbeEnv) (subdomain domain : String) : ProbeResult :=
  let full_subdomain := subdomain ++ "." ++ domain
  let result : ProbeResult :=
    { subdomain := full_subdomain
      http_accessible := false
      https_accessible := false
      http_status := none
      https_status := none
      ip_address := none
      server := none }
  match env.resolve with
  | .gaierror => result
  | .unexpected => result
  | .ok ip =>
    let result := { result with ip_address := some ip }
    let result :=
      match env.http with
      | .ok status hdr =>
          { result with
              http_accessible := true
              http_status := some status
              server := some (hdr.getD "Unknown") }
      | _ => result
    match env.https with
    | .ok status hdr =>
        let r := { result with
          https_accessible := true
          https_status := some status }
        if serverNeedsFallback r.server then
          { r with server := some (hdr.getD "Unknown") }
        else r
    | _ => result

/-- Did the fetch yield a response that carries a `Server` header
(of any value, possibly empty)? -/
def suppliesHeader : FetchOutcome → Bool
  | .ok _ (some _) => true
  | _ => false

/-- The banner selection rule the code actually implements, written
out as its own definition for comparison with `probeResultOf`:
prefer the HTTP response's `Server` value, but fall back to the HTTPS
response's value (defaulting to the placeholder) whenever the HTTP
attempt yielded no header, an empty one, or the literal placeholder
value; absent headers read as the placeholder string. -/
def serverBannerSpec (env : ProbeEnv) : Option String :=
  match env.http with
  | .ok _ hdr =>
      let b := hdr.getD "Unknown"
      if b = "" || b = "Unknown" then
        match env.https with
        | .ok _ hdr2 => some (hdr2.getD "Unknown")
        | _ => some b
      else some b
  | _ =>
      match env.https with
      | .ok _ hdr2 => some (hdr2.getD "Unknown")
      | _ => none

/-- The three kinds of lock-protected updates a single probe performs
on the shared state, in order: the `tested` increment (lines 105-106),
then at most one of the discovery append (lines 140-142) or the
`errors` increment (lines 157-158). -/
inductive ProbeEvent where
  | tested
  | discovered (r : ProbeResult)
  | errored
deriving DecidableEq, Repr

/-- Apply one lock-protected update to the shared state. -/
def applyEvent (st : EnumState) : ProbeEvent → EnumState
  | .tested => { st with tested := st.tested + 1 }
  | .discovered r =>
      { st with
          discovered_subdomains := st.discovered_subdomains ++ [r]
          discovered := st.discovered + 1 }
  | .errored => { st with errors := st.errors + 1 }

/-- Apply a sequence of lock-protected updates in order. -/
def applyEvents (l : List ProbeEvent) (st : EnumState) : EnumState :=
  l.foldl applyEvent st

/-- The sequence of lock-protected updates one probe performs, read off
from `check_subdomain`: first the `tested` increment, then the
discovery append when the probe returns a result, the `errors`
increment when it hit an unexpected exception, and nothing more
otherwise. -/
def probeTrace (env : ProbeEnv) (subdomain domain : String) : List ProbeEvent :=
  ProbeEvent.tested ::
    (match (check_subdomain env subdomain domain initState).2 with
     | some r => [ProbeEvent.discovered r]
     | none =>
        if (check_subdomain env subdomain domain initState).1.errors = 0 then []
        else [ProbeEvent.errored])

/-- `tested` increments in an update sequence. -/
def countT (l : List ProbeEvent) : Nat :=
  l.countP fun e => match e with | .tested => true | _ => false

/-- discovery appends in an update sequence. -/
def countD (l : List ProbeEvent) : Nat :=
  l.countP fun e => match e with | .discovered _ => true | _ => false

/-- `errors` increments in an update sequence. -/
def countE (l : List ProbeEvent) : Nat :=
  l.countP fun e => match e with | .errored => true | _ => false

/-- `Interleave xs ys zs`: `zs` is an order-preserving merge of `xs`
and `ys` — one possible serialization of the lock-protected updates of
two concurrent threads. -/
inductive Interleave : List ProbeEvent → List ProbeEvent → List ProbeEvent → Prop where
  | nil : Interleave [] [] []
  | left {x xs ys zs} : Interleave xs ys zs → Interleave (x :: xs) ys (x :: zs)
  | right {y xs ys zs} : Interleave xs ys zs → Interleave xs (y :: ys) (y :: zs)

/-- `InterleaveN ls zs`: `zs` is an order-preserving merge of all the
lists in `ls` — one possible serialization of the lock-protected
updates of the worker threads, one list per submitted probe. -/
inductive InterleaveN : List (List ProbeEvent) → List ProbeEvent → Prop where
  | nil : InterleaveN [] []
  | cons {xs ls zs ws} : InterleaveN ls zs → Interleave xs zs ws →
      InterleaveN (xs :: ls) ws

/-- State of the `ThreadPoolExecutor(max_workers=...)` used by
`enumerate_subdomains` (lines 177-188): candidates not yet started (the
executor starts submitted tasks in order, a new one only while fewer
than `max_workers` run), candidates currently running, candidates whose
probe has completed. -/
structure PoolState where
  pending : List String
  running : List String
  done : List String
deriving DecidableEq, Repr

/-- One scheduling step of the executor: start the next pending task
when a worker is free (strictly fewer than `cap` tasks running), or
complete any running task. -/
inductive PoolStep (cap : Nat) : PoolState → PoolState → Prop where
  | start (x : String) (pending running done : List String)
      (h : running.length < cap) :
      PoolStep cap
        { pending := x :: pending, running := running, done := done }
        { pending := pending, running := running ++ [x], done := done }
  | finish (x : String) (pending r1 r2 done : List String) :
      PoolStep cap
        { pending := pending, running := r1 ++ x :: r2, done := done }
        { pending := pending, running := r1 ++ r2, done := done ++ [x] }

/-- Pool states reachable during a run over the given candidate list:
the executor begins with every candidate pending and nothing running. -/
def PoolReachable (cap : Nat) (cands : List String) (st : PoolState) : Prop :=
  Relation.ReflTransGen (PoolStep cap)
    { pending := cands, running := [], done := [] } st

/-- The whitespace characters Python `str.strip` removes by default
(space, tab, newline, carriage return, vertical tab, form feed),
tested by code point. -/
def pyIsSpace (c : Char) : Bool :=
  c.toNat == 32 || c.toNat == 9 || c.toNat == 10 ||
  c.toNat == 13 || c.toNat == 11 || c.toNat == 12

/-- Python `str.strip()` on a character list: drop leading and trailing
whitespace. -/
def pyStripList (l : List Char) : List Char :=
  ((l.dropWhile pyIsSpace).reverse.dropWhile pyIsSpace).reverse

/-- Python `str.strip()`. -/
def pyStrip (s : String) : String :=
  { data := pyStripList s.data }

/-- Python `str.lower()`, modelled on the basic-latin alphabet by
`Char.toLower` applied characterwise. -/
def pyLower (s : String) : String :=
  { data := s.data.map Char.toLower }

/-- `SubdomainEnumerator.load_wordlist` (lines 68-77) on the list of
lines of the wordlist file:
`[line.strip().lower() for line in f if line.strip()]` followed by
`list(set(...))`.  The Python set collapses duplicates in an
unspecified order; it is modelled by `List.dedup`, which keeps one
occurrence of each element. -/
def load_wordlist (lines : List String) : List String :=
  ((lines.filter fun line => pyStrip line ≠ "").map
    fun line => pyLower (pyStrip line)).dedup

/-- Lexicographic comparison of character lists by code point —
Python's `<=` on strings, the order `sorted` uses for string keys. -/
def charListLe : List Char → List Char → Bool
  | [], _ => true
  | _ :: _, [] => false
  | a :: as, b :: bs => if a = b then charListLe as bs else decide (a < b)

/-- Ascending host-name comparison of two probe results, the sort key
`lambda x: x['subdomain']` of `display_summary`. -/
def hostLe (a b : ProbeResult) : Bool :=
  charListLe a.subdomain.data b.subdomain.data

/-- The order in which `display_summary` (lines 212-222) prints the
discovered subdomains: `sorted(self.discovered_subdomains, key=lambda
x: x['subdomain'])` (Python `sorted` is a stable merge sort). -/
def display_summary_order (st : EnumState) : List ProbeResult :=
  st.discovered_subdomains.mergeSort hostLe

/-- The order in which `save_results` (lines 226-258) writes the
discovered subdomains, identical for the JSON, CSV and text branches:
`self.discovered_subdomains` is written as is, in append order. -/
def save_results_order (st : EnumState) : List ProbeResult :=
  st.discovered_subdomains

example :
    check_subdomain { resolve := .gaierror, http := .reqError, https := .reqError }
      "www" "example.com" initState =
    ({ initState with tested := 1 }, none) := by decide

/-- Characterization of `check_subdomain`: a probe either aborts on an
unexpected exception (counting an error), or completes; a completed
probe appends and returns its result exactly when resolution succeeded
and a scheme fetch succeeded, and otherwise only counts `tested`. -/
theorem check_subdomain_eq (env : ProbeEnv) (subdomain domain : String)
    (st : EnumState) :
    check_subdomain env subdomain domain st =
      if unexpectedHit env then
        ({ st with tested := st.tested + 1, errors := st.errors + 1 }, none)
      else if resolveOk env.resolve && (fetchOk env.http || fetchOk env.https) then
        ({ st with
            tested := st.tested + 1
            discovered := st.discovered + 1
            discovered_subdomains :=
              st.discovered_subdomains ++ [probeResultOf env subdomain domain] },
          some (probeResultOf env subdomain domain))
      else
        ({ st with tested := st.tested + 1 }, none) := by
  rcases env with ⟨res, htt, hts⟩
  cases res <;> cases htt <;> cases hts <;>
    simp [check_subdomain, probeResultOf, unexpectedHit, resolveOk, fetchOk,
      serverNeedsFallback] <;>
    (try split) <;> simp

/-- C3: when name resolution fails with `socket.gaierror` the probe
returns at once with no result: the state change is exactly the
`tested` increment (no discovery, no error count), and the returned
value does not depend on the HTTP/HTTPS fetch outcomes at all — no
fetch is performed.  The code represents the non-discovery outcome by
returning `None`; the local result record at that point still has
`ip_address = None` (resolution did not succeed). -/
theorem resolution_failure_short_circuits (subdomain domain : String)
    (st : EnumState) (f g : FetchOutcome) :
    check_subdomain { resolve := .gaierror, http := f, https := g }
        subdomain domain st =
      ({ st with tested := st.tested + 1 }, none) := by
  cases f <;> cases g <;> rfl

/-- C4: `check_subdomain` is a total function of its environment —
every probe yields exactly one outcome and no exception escapes.  The
`errors` counter moves exactly on the unexpected-exception paths
(outside DNS `gaierror` and per-scheme `RequestException`), and such a
probe still terminates with a non-discovered outcome (`None`, nothing
appended), leaving the run to continue with the other candidates. -/
theorem probe_error_contract (env : ProbeEnv) (subdomain domain : String)
    (st : EnumState) :
    (check_subdomain env subdomain domain st).1.errors =
      st.errors + (if unexpectedHit env then 1 else 0) ∧
    (unexpectedHit env = true →
      check_subdomain env subdomain domain st =
        ({ st with tested := st.tested + 1, errors := st.errors + 1 }, none)) := by
  rw [check_subdomain_eq]
  cases hu : unexpectedHit env <;> simp [hu]
  split <;> simp

/-- Witness for `probe_error_contract` at a concrete environment whose
resolution raises an unexpected exception. -/
theorem probe_error_contract_witness :
    (check_subdomain { resolve := .unexpected, http := .reqError, https := .reqError }
        "www" "example.com" initState).1.errors =
      initState.errors +
        (if unexpectedHit { resolve := .unexpected, http := .reqError, https := .reqError }
          then 1 else 0) ∧
    (unexpectedHit { resolve := .unexpected, http := .reqError, https := .reqError } = true →
      check_subdomain { resolve := .unexpected, http := .reqError, https := .reqError }
          "www" "example.com" initState =
        ({ initState with
            tested := initState.tested + 1
            errors := initState.errors + 1 }, none)) :=
  probe_error_contract
    { resolve := .unexpected, http := .reqError, https := .reqError }
    "www" "example.com" initState

/-- C1 fails as stated: in this environment resolution succeeds and the
HTTP fetch succeeds (a final 200 response), yet the result is not in
the discovered set, because the HTTPS fetch then raises an unexpected
exception, which aborts the probe through the outer handler before the
append. -/
theorem discovery_invariant_counterexample :
    resolveOk ResolveOutcome.unexpected = false ∧
    resolveOk (ResolveOutcome.ok "93.184.216.34") = true ∧
    fetchOk (FetchOutcome.ok 200 none) = true ∧
    (check_subdomain
        { resolve := .ok "93.184.216.34", http := .ok 200 none, https := .unexpected }
        "www" "example.com" initState).1.discovered_subdomains = [] ∧
    (check_subdomain
        { resolve := .ok "93.184.216.34", http := .ok 200 none, https := .unexpected }
        "www" "example.com" initState).2 = none := by decide

/-- C1 (amended): a probe appends its result to the discovered set —
and returns it — exactly when resolution succeeded, no unexpected
exception aborted the probe, and at least one of the HTTP/HTTPS fetches
succeeded; in particular resolution success alone never adds to the
discovered set. -/
theorem discovery_invariant (env : ProbeEnv) (subdomain domain : String)
    (st : EnumState) :
    (check_subdomain env subdomain domain st).1.discovered_subdomains =
      st.discovered_subdomains ++
        (if resolveOk env.resolve && !unexpectedHit env &&
            (fetchOk env.http || fetchOk env.https) then
          [probeResultOf env subdomain domain]
        else []) ∧
    ((check_subdomain env subdomain domain st).2 =
      if resolveOk env.resolve && !unexpectedHit env &&
          (fetchOk env.http || fetchOk env.https) then
        some (probeResultOf env subdomain domain)
      else none) := by
  rw [check_subdomain_eq]
  cases hu : unexpectedHit env <;> simp [hu] <;> split <;> simp_all

/-- C10: every entry the probe appends to the discovered set (equally:
every result it returns) carries a concrete string in its `server`
field and in its `ip_address` field; when neither reachable scheme's
response supplied a `Server` header, `server` holds the literal
placeholder string. -/
theorem discovered_entry_fields (env : ProbeEnv) (subdomain domain : String)
    (st : EnumState) (r : ProbeResult)
    (h : (check_subdomain env subdomain domain st).2 = some r) :
    (check_subdomain env subdomain domain st).1.discovered_subdomains =
      st.discovered_subdomains ++ [r] ∧
    (∃ srv, r.server = some srv) ∧
    (∃ ip, r.ip_address = some ip) ∧
    (suppliesHeader env.http = false → suppliesHeader env.https = false →
      r.server = some "Unknown") := by
  rcases env with ⟨res, htt, hts⟩
  rw [check_subdomain_eq] at h ⊢
  cases res with
  | gaierror => simp [unexpectedHit, resolveOk] at h
  | unexpected => simp [unexpectedHit] at h
  | ok ip =>
    cases htt with
    | unexpected => simp [unexpectedHit] at h
    | reqError =>
      cases hts with
      | unexpected => simp [unexpectedHit] at h
      | reqError => simp [unexpectedHit, resolveOk, fetchOk] at h
      | ok status2 hdr2 =>
        simp [unexpectedHit, resolveOk, fetchOk, probeResultOf,
          serverNeedsFallback] at h ⊢
        subst h
        cases hdr2 <;> simp [suppliesHeader]
    | ok status1 hdr1 =>
      cases hts with
      | unexpected => simp [unexpectedHit] at h
      | reqError =>
        simp [unexpectedHit, resolveOk, fetchOk, probeResultOf,
          serverNeedsFallback] at h ⊢
        subst h
        cases hdr1 <;> simp [suppliesHeader]
      | ok status2 hdr2 =>
        simp [unexpectedHit, resolveOk, fetchOk, probeResultOf,
          serverNeedsFallback] at h ⊢
        subst h
        cases hdr1 <;> cases hdr2 <;> simp [suppliesHeader] <;>
          split <;> simp

/-- The entry produced by a concrete probe reachable over HTTP only,
with no `Server` header supplied; used by the witness below. -/
def wwwUnknownResult : ProbeResult :=
  { subdomain := "www.example.com"
    http_accessible := true
    https_accessible := false
    http_status := some 200
    https_status := none
    ip_address := some "93.184.216.34"
    server := some "Unknown" }

/-- Witness for `discovered_entry_fields` at a concrete probe reachable
over HTTP only, with no `Server` header supplied. -/
theorem discovered_entry_fields_witness :
    (check_subdomain
        { resolve := .ok "93.184.216.34", http := .ok 200 none, https := .reqError }
        "www" "example.com" initState).1.discovered_subdomains =
      initState.discovered_subdomains ++ [wwwUnknownResult] ∧
    (∃ srv, wwwUnknownResult.server = some srv) ∧
    (∃ ip, wwwUnknownResult.ip_address = some ip) ∧
    (suppliesHeader (FetchOutcome.ok 200 none) = false →
      suppliesHeader FetchOutcome.reqError = false →
      wwwUnknownResult.server = some "Unknown") :=
  discovered_entry_fields
    { resolve := .ok "93.184.216.34", http := .ok 200 none, https := .reqError }
    "www" "example.com" initState wwwUnknownResult (by decide)

example :
    (check_subdomain
      { resolve := .ok "93.184.216.34", http := .ok 200 none, https := .reqError }
      "www" "example.com" initState).2 =
    some { subdomain := "www.example.com", http_accessible := true,
           https_accessible := false, http_status := some 200,
           https_status := none, ip_address := some "93.184.216.34",
           server := some "Unknown" } := by decide

/-- C8 fails as stated: here the HTTP fetch succeeds and its response
does yield a `Server` header, with the literal value matching the
placeholder string, yet the recorded banner is taken from the HTTPS
response — the fallback triggers on the header value, not on whether a
header was yielded. -/
theorem server_banner_counterexample :
    suppliesHeader (FetchOutcome.ok 200 (some "Unknown")) = true ∧
    (check_subdomain
        { resolve := .ok "93.184.216.34"
          http := .ok 200 (some "Unknown")
          https := .ok 200 (some "nginx") }
        "www" "example.com" initState).2.map ProbeResult.server =
      some (some "nginx") ∧
    ("nginx" : String) ≠ "Unknown" := by decide

/-- C8 (amended): on a completed probe whose resolution succeeded, the
recorded `server` value follows `serverBannerSpec`: the HTTP response's
header value is kept when it is non-empty and differs from the literal
placeholder; otherwise, when the HTTPS fetch succeeded, the HTTPS
response's header (read as the placeholder when absent) replaces it.
In particular a host reachable only via HTTPS whose response carries a
`Server` header records exactly that HTTPS header value. -/
theorem server_banner_rule (ip subdomain domain : String)
    (htt hts : FetchOutcome)
    (h2 : htt ≠ FetchOutcome.unexpected) (h3 : hts ≠ FetchOutcome.unexpected) :
    (probeResultOf { resolve := .ok ip, http := htt, https := hts }
        subdomain domain).server =
      serverBannerSpec { resolve := .ok ip, http := htt, https := hts } ∧
    (∀ status hv, fetchOk htt = false → hts = FetchOutcome.ok status (some hv) →
      (probeResultOf { resolve := .ok ip, http := htt, https := hts }
          subdomain domain).server = some hv) := by
  cases htt with
  | unexpected => exact absurd rfl h2
  | reqError =>
    cases hts with
    | unexpected => exact absurd rfl h3
    | reqError => simp [probeResultOf, serverBannerSpec, fetchOk]
    | ok status2 hdr2 =>
      refine ⟨by simp [probeResultOf, serverBannerSpec, serverNeedsFallback], ?_⟩
      rintro status hv _ heq
      cases heq
      simp [probeResultOf, serverNeedsFallback]
  | ok status1 hdr1 =>
    cases hts with
    | unexpected => exact absurd rfl h3
    | reqError =>
      simp [probeResultOf, serverBannerSpec, serverNeedsFallback, fetchOk]
    | ok status2 hdr2 =>
      refine ⟨?_, by simp [fetchOk]⟩
      simp only [probeResultOf, serverBannerSpec, serverNeedsFallback]
      split <;> rfl

/-- Witness for `server_banner_rule`: a host reachable only over HTTPS
whose response announces nginx. -/
theorem server_banner_rule_witness :
    (probeResultOf
        { resolve := .ok "93.184.216.34", http := .reqError,
          https := .ok 200 (some "nginx") } "www" "example.com").server =
      serverBannerSpec
        { resolve := .ok "93.184.216.34", http := .reqError,
          https := .ok 200 (some "nginx") } ∧
    (∀ status hv, fetchOk FetchOutcome.reqError = false →
      FetchOutcome.ok 200 (some "nginx") = FetchOutcome.ok status (some hv) →
      (probeResultOf
          { resolve := .ok "93.184.216.34", http := .reqError,
            https := .ok 200 (some "nginx") } "www" "example.com").server =
        some hv) :=
  server_banner_rule "93.184.216.34" "www" "example.com"
    FetchOutcome.reqError (FetchOutcome.ok 200 (some "nginx"))
    (by decide) (by decide)

/-- `charListLe` is total: of any two character lists one compares
less-or-equal to the other. -/
theorem charListLe_total (xs ys : List Char) :
    charListLe xs ys = true ∨ charListLe ys xs = true := by
  induction xs generalizing ys with
  | nil => left; rfl
  | cons a as ih =>
    cases ys with
    | nil => right; rfl
    | cons b bs =>
      by_cases hab : a = b
      · subst hab
        simpa [charListLe] using ih bs
      · rcases lt_or_gt_of_ne hab with h | h
        · left; simp [charListLe, hab, h]
        · right; simp [charListLe, Ne.symm hab, h]

/-- `charListLe` is transitive. -/
theorem charListLe_trans (xs ys zs : List Char) (h1 : charListLe xs ys = true)
    (h2 : charListLe ys zs = true) : charListLe xs zs = true := by
  induction xs generalizing ys zs with
  | nil => rfl
  | cons a as ih =>
    cases ys with
    | nil => simp [charListLe] at h1
    | cons b bs =>
      cases zs with
      | nil => simp [charListLe] at h2
      | cons c cs =>
        simp only [charListLe] at h1 h2 ⊢
        by_cases hab : a = b <;> by_cases hbc : b = c
        · subst hab; subst hbc
          rw [if_pos rfl] at h1 h2 ⊢
          exact ih bs cs h1 h2
        · subst hab
          rw [if_pos rfl] at h1
          rw [if_neg hbc] at h2
          rw [if_neg hbc]
          exact h2
        · subst hbc
          rw [if_neg hab] at h1
          rw [if_neg hab]
          exact h1
        · rw [if_neg hab] at h1
          rw [if_neg hbc] at h2
          have hac : a < c :=
            lt_trans (of_decide_eq_true h1) (of_decide_eq_true h2)
          rw [if_neg (ne_of_lt hac)]
          exact decide_eq_true hac

/-- C2 fails as stated: a completed two-candidate run in which the
probe of `www.example.com` finishes before the probe of
`api.example.com`.  The summary display sorts, but `save_results`
writes `self.discovered_subdomains` in append (completion) order for
all three file formats, and that order is not ascending by host. -/
theorem save_results_unsorted_counterexample :
    ¬ (save_results_order
        (check_subdomain
          { resolve := .ok "10.0.0.2", http := .ok 200 none, https := .reqError }
          "api" "example.com"
          (check_subdomain
            { resolve := .ok "10.0.0.1", http := .ok 200 none, https := .reqError }
            "www" "example.com" initState).1).1).Pairwise
      (fun a b => hostLe a b = true) := by decide

/-- C2 (amended): after the pool drains, the summary displayed on the
terminal lists the discovered results sorted ascending by host name
(and is a permutation of the discovered set), independent of completion
order; the `save_results` file output, however, presents the discovered
set exactly in append (completion) order. -/
theorem final_output_orders (st : EnumState) :
    (display_summary_order st).Pairwise (fun a b => hostLe a b = true) ∧
    (display_summary_order st).Perm st.discovered_subdomains ∧
    save_results_order st = st.discovered_subdomains := by
  refine ⟨?_, List.mergeSort_perm _ _, rfl⟩
  exact @List.sorted_mergeSort ProbeResult hostLe
    (fun a b c hab hbc => charListLe_trans _ _ _ hab hbc)
    (fun a b => by
      rcases charListLe_total a.subdomain.data b.subdomain.data with h | h <;>
        simp [hostLe, h])
    st.discovered_subdomains

/-- Evaluating `Char.ofNat` below the surrogate range. -/
theorem char_toNat_ofNat {n : Nat} (h : n < 55296) :
    (Char.ofNat n).toNat = n := by
  unfold Char.ofNat
  rw [dif_pos (Or.inl h)]
  rfl

/-- `Char.toLower` on a basic-latin upper-case letter. -/
theorem toLower_eq_of_upper {c : Char} (h : 65 ≤ c.toNat ∧ c.toNat ≤ 90) :
    Char.toLower c = Char.ofNat (c.toNat + 32) := by
  simp only [Char.toLower]
  rw [if_pos h]

/-- `Char.toLower` elsewhere. -/
theorem toLower_eq_self {c : Char} (h : ¬(65 ≤ c.toNat ∧ c.toNat ≤ 90)) :
    Char.toLower c = c := by
  simp only [Char.toLower]
  rw [if_neg h]

/-- Lowercasing does not change whether a character is whitespace. -/
theorem pyIsSpace_toLower (c : Char) : pyIsSpace c.toLower = pyIsSpace c := by
  by_cases h : 65 ≤ c.toNat ∧ c.toNat ≤ 90
  · rw [toLower_eq_of_upper h]
    have h1 : (Char.ofNat (c.toNat + 32)).toNat = c.toNat + 32 :=
      char_toNat_ofNat (by omega)
    have hL : pyIsSpace (Char.ofNat (c.toNat + 32)) = false := by
      simp only [pyIsSpace, h1, Bool.or_eq_false_iff, beq_eq_false_iff_ne, ne_eq]
      omega
    have hR : pyIsSpace c = false := by
      simp only [pyIsSpace, Bool.or_eq_false_iff, beq_eq_false_iff_ne, ne_eq]
      omega
    rw [hL, hR]
  · rw [toLower_eq_self h]

/-- `Char.toLower` is idempotent. -/
theorem toLower_toLower (c : Char) :
    Char.toLower (Char.toLower c) = Char.toLower c := by
  by_cases h : 65 ≤ c.toNat ∧ c.toNat ≤ 90
  · rw [toLower_eq_of_upper h]
    apply toLower_eq_self
    rw [char_toNat_ofNat (by omega)]
    omega
  · rw [toLower_eq_self h, toLower_eq_self h]

/-- `dropWhile` for whitespace commutes with characterwise
lowercasing. -/
theorem dropWhile_map_toLower (l : List Char) :
    (l.map Char.toLower).dropWhile pyIsSpace =
      (l.dropWhile pyIsSpace).map Char.toLower := by
  induction l with
  | nil => rfl
  | cons c l ih =>
    simp only [List.map_cons, List.dropWhile_cons, pyIsSpace_toLower]
    cases h : pyIsSpace c <;> simp [h, ih]

/-- Stripping commutes with characterwise lowercasing. -/
theorem pyStripList_map_toLower (l : List Char) :
    pyStripList (l.map Char.toLower) = (pyStripList l).map Char.toLower := by
  unfold pyStripList
  rw [dropWhile_map_toLower, ← List.map_reverse, dropWhile_map_toLower,
    ← List.map_reverse]

/-- `dropWhile` is idempotent. -/
theorem dropWhile_dropWhile (p : Char → Bool) (l : List Char) :
    (l.dropWhile p).dropWhile p = l.dropWhile p := by
  induction l with
  | nil => rfl
  | cons c l ih =>
    cases h : p c <;> simp [List.dropWhile_cons, h, ih]

/-- A list splits as dropped part plus `dropWhile` remainder. -/
theorem exists_dropWhile_decomp (p : Char → Bool) (l : List Char) :
    ∃ u, l = u ++ l.dropWhile p := by
  induction l with
  | nil => exact ⟨[], rfl⟩
  | cons c l ih =>
    cases h : p c
    · exact ⟨[], by simp [List.dropWhile_cons, h]⟩
    · obtain ⟨u, hu⟩ := ih
      refine ⟨c :: u, ?_⟩
      simp only [List.dropWhile_cons, h, if_pos, List.cons_append,
        List.cons.injEq, true_and]
      exact hu

/-- The head surviving `dropWhile p` does not satisfy `p`. -/
theorem head_dropWhile_not (p : Char → Bool) (l : List Char) {c : Char}
    {t : List Char} (h : l.dropWhile p = c :: t) : p c = false := by
  induction l with
  | nil => simp [List.dropWhile] at h
  | cons a l ih =>
    rw [List.dropWhile_cons] at h
    by_cases ha : p a
    · rw [if_pos ha] at h
      exact ih h
    · rw [if_neg ha] at h
      cases h
      exact Bool.not_eq_true _ ▸ ha

/-- A list whose head (if any) fails `p` is fixed by `dropWhile p`. -/
theorem dropWhile_fixed_of_head {p : Char → Bool} {l : List Char}
    (h : ∀ c t, l = c :: t → p c = false) : l.dropWhile p = l := by
  cases l with
  | nil => rfl
  | cons c t =>
    rw [List.dropWhile_cons, h c t rfl]
    simp

/-- A stripped list has no leading whitespace left. -/
theorem pyStripList_no_leading (l : List Char) :
    (pyStripList l).dropWhile pyIsSpace = pyStripList l := by
  apply dropWhile_fixed_of_head
  intro c t hct
  obtain ⟨u, hu⟩ :=
    exists_dropWhile_decomp pyIsSpace (l.dropWhile pyIsSpace).reverse
  have hA2 : l.dropWhile pyIsSpace = pyStripList l ++ u.reverse := by
    have h2 := congrArg List.reverse hu
    rw [List.reverse_reverse, List.reverse_append] at h2
    exact h2
  exact head_dropWhile_not pyIsSpace l
    (by rw [hA2, hct, List.cons_append])

/-- Stripping is idempotent. -/
theorem pyStripList_idem (l : List Char) :
    pyStripList (pyStripList l) = pyStripList l := by
  show (((pyStripList l).dropWhile pyIsSpace).reverse.dropWhile
      pyIsSpace).reverse = pyStripList l
  rw [pyStripList_no_leading]
  have h2 : (pyStripList l).reverse =
      (l.dropWhile pyIsSpace).reverse.dropWhile pyIsSpace := by
    unfold pyStripList
    rw [List.reverse_reverse]
  rw [h2, dropWhile_dropWhile]
  rfl

/-- Stripping a lowered stripped string changes nothing. -/
theorem pyStrip_pyLower_pyStrip (s : String) :
    pyStrip (pyLower (pyStrip s)) = pyLower (pyStrip s) := by
  apply String.ext
  show pyStripList ((pyStripList s.data).map Char.toLower) =
    (pyStripList s.data).map Char.toLower
  rw [pyStripList_map_toLower, pyStripList_idem]

/-- Lowercasing is idempotent on strings. -/
theorem pyLower_pyLower (s : String) : pyLower (pyLower s) = pyLower s := by
  apply String.ext
  show (s.data.map Char.toLower).map Char.toLower = s.data.map Char.toLower
  rw [List.map_map]
  apply List.map_congr_left
  intro c _
  exact toLower_toLower c

/-- C7: whatever the wordlist file contains, every candidate produced
by `load_wordlist` is a non-empty string, fixed under stripping
(no leading or trailing whitespace) and fixed under lowercasing
(already lower case), and the candidate list has no duplicates: each
distinct normalized fragment appears exactly once. -/
theorem load_wordlist_normalized (lines : List String) :
    (load_wordlist lines).Nodup ∧
    ∀ w, w ∈ load_wordlist lines →
      w ≠ "" ∧ pyStrip w = w ∧ pyLower w = w := by
  refine ⟨List.nodup_dedup _, ?_⟩
  intro w hw
  rw [load_wordlist, List.mem_dedup, List.mem_map] at hw
  obtain ⟨line, hline, rfl⟩ := hw
  rw [List.mem_filter] at hline
  have hne : pyStrip line ≠ "" := of_decide_eq_true hline.2
  refine ⟨?_, pyStrip_pyLower_pyStrip line, pyLower_pyLower (pyStrip line)⟩
  intro hcon
  apply hne
  apply String.ext
  have h2 := congrArg String.data hcon
  simp only [pyLower] at h2
  rw [List.map_eq_nil_iff] at h2
  exact h2

/-- Witness for `load_wordlist_normalized` on a concrete wordlist file
holding an upper-case padded line, its normalized duplicate, an empty
line and a blank line. -/
theorem load_wordlist_normalized_witness :
    (load_wordlist [" Admin ", "admin", "", "  "]).Nodup ∧
    (("admin" : String) ≠ "" ∧ pyStrip "admin" = "admin" ∧
      pyLower "admin" = "admin") :=
  ⟨(load_wordlist_normalized [" Admin ", "admin", "", "  "]).1,
   (load_wordlist_normalized [" Admin ", "admin", "", "  "]).2 "admin"
     (by decide)⟩

/-- Unfolding step for `applyEvents`. -/
theorem applyEvents_cons (e : ProbeEvent) (l : List ProbeEvent)
    (st : EnumState) :
    applyEvents (e :: l) st = applyEvents l (applyEvent st e) := rfl

/-- The counters after applying an update sequence are the starting
counters plus the number of increments of each kind in the sequence. -/
theorem applyEvents_counts (l : List ProbeEvent) (st : EnumState) :
    (applyEvents l st).tested = st.tested + countT l ∧
    (applyEvents l st).discovered = st.discovered + countD l ∧
    (applyEvents l st).errors = st.errors + countE l := by
  induction l generalizing st with
  | nil => simp [applyEvents, countT, countD, countE]
  | cons e l ih =>
    rw [applyEvents_cons]
    rcases ih (applyEvent st e) with ⟨h1, h2, h3⟩
    cases e <;>
      simp [applyEvent, countT, countD, countE, List.countP_cons]
        at h1 h2 h3 ⊢ <;>
      omega

/-- An interleaving has the summed event counts of its components. -/
theorem Interleave.countP_add {xs ys zs : List ProbeEvent}
    (h : Interleave xs ys zs) (q : ProbeEvent → Bool) :
    zs.countP q = xs.countP q + ys.countP q := by
  induction h with
  | nil => simp
  | left h2 ih => simp only [List.countP_cons, ih]; omega
  | right h2 ih => simp only [List.countP_cons, ih]; omega

/-- A left part of an interleaving is an interleaving of left parts of
the components. -/
theorem Interleave.append_split {xs ys zs : List ProbeEvent}
    (h : Interleave xs ys zs) :
    ∀ p s, zs = p ++ s →
      ∃ px py, (∃ sx, xs = px ++ sx) ∧ (∃ sy, ys = py ++ sy) ∧
        Interleave px py p := by
  induction h with
  | nil =>
    intro p s hps
    obtain ⟨hp, -⟩ := List.append_eq_nil.mp hps.symm
    subst hp
    exact ⟨[], [], ⟨[], rfl⟩, ⟨[], rfl⟩, Interleave.nil⟩
  | @left x xs ys zs h2 ih =>
    intro p s hps
    cases p with
    | nil => exact ⟨[], [], ⟨x :: xs, rfl⟩, ⟨ys, rfl⟩, Interleave.nil⟩
    | cons a p2 =>
      rw [List.cons_append] at hps
      injection hps with h3 h4
      subst h3
      obtain ⟨px, py, ⟨sx, hx⟩, ⟨sy, hy⟩, hI⟩ := ih p2 s h4
      exact ⟨x :: px, py, ⟨sx, by rw [List.cons_append, hx]⟩, ⟨sy, hy⟩,
        Interleave.left hI⟩
  | @right y xs ys zs h2 ih =>
    intro p s hps
    cases p with
    | nil => exact ⟨[], [], ⟨xs, rfl⟩, ⟨y :: ys, rfl⟩, Interleave.nil⟩
    | cons a p2 =>
      rw [List.cons_append] at hps
      injection hps with h3 h4
      subst h3
      obtain ⟨px, py, ⟨sx, hx⟩, ⟨sy, hy⟩, hI⟩ := ih p2 s h4
      exact ⟨px, y :: py, ⟨sx, hx⟩, ⟨sy, by rw [List.cons_append, hy]⟩,
        Interleave.right hI⟩

/-- Safety of an update sequence: along every left part, the number of
discovery appends and the number of error increments each stay below
the number of `tested` increments already performed. -/
def TraceOK (l : List ProbeEvent) : Prop :=
  ∀ p s, l = p ++ s → countD p ≤ countT p ∧ countE p ≤ countT p

/-- Safety is preserved by interleaving two update sequences. -/
theorem Interleave.traceOK_pair {xs ys zs : List ProbeEvent}
    (h : Interleave xs ys zs) (hx : TraceOK xs) (hy : TraceOK ys) :
    TraceOK zs := by
  intro p s hps
  obtain ⟨px, py, ⟨sx, hsx⟩, ⟨sy, hsy⟩, hI⟩ := h.append_split p s hps
  obtain ⟨cx1, cx2⟩ := hx px sx hsx
  obtain ⟨cy1, cy2⟩ := hy py sy hsy
  have hT := hI.countP_add fun e => match e with | .tested => true | _ => false
  have hD := hI.countP_add fun e => match e with | .discovered _ => true | _ => false
  have hE := hI.countP_add fun e => match e with | .errored => true | _ => false
  unfold countT countD countE at *
  omega

/-- Safety is preserved by interleaving any number of update
sequences. -/
theorem InterleaveN.traceOK_many {ls : List (List ProbeEvent)}
    {zs : List ProbeEvent} (h : InterleaveN ls zs)
    (hl : ∀ l ∈ ls, TraceOK l) : TraceOK zs := by
  induction h with
  | nil =>
    intro p s hps
    obtain ⟨hp, -⟩ := List.append_eq_nil.mp hps.symm
    subst hp
    simp [countT, countD, countE]
  | @cons xs ls zs ws hN hI ih =>
    exact hI.traceOK_pair (hl xs (by simp))
      (ih fun l hl2 => hl l (by simp [hl2]))

/-- An interleaving of several sequences has the summed event counts of
its components. -/
theorem InterleaveN.countP_sum {ls : List (List ProbeEvent)}
    {zs : List ProbeEvent} (h : InterleaveN ls zs)
    (q : ProbeEvent → Bool) :
    zs.countP q = (ls.map fun l => l.countP q).sum := by
  induction h with
  | nil => simp
  | cons hN hI ih =>
    rw [hI.countP_add q, ih]
    simp [Nat.add_comm]

/-- The update sequence of one probe takes one of exactly three shapes:
a bare `tested` increment, a `tested` increment followed by one
discovery append, or a `tested` increment followed by one error
increment. -/
theorem probeTrace_shape (env : ProbeEnv) (subdomain domain : String) :
    probeTrace env subdomain domain = [ProbeEvent.tested] ∨
    (∃ r, probeTrace env subdomain domain =
      [ProbeEvent.tested, ProbeEvent.discovered r]) ∨
    probeTrace env subdomain domain =
      [ProbeEvent.tested, ProbeEvent.errored] := by
  by_cases hu : unexpectedHit env
  · right; right
    unfold probeTrace
    rw [check_subdomain_eq]
    simp [hu, initState]
  · by_cases hc : (resolveOk env.resolve &&
      (fetchOk env.http || fetchOk env.https)) = true
    · right; left
      refine ⟨probeResultOf env subdomain domain, ?_⟩
      unfold probeTrace
      rw [check_subdomain_eq]
      simp [hu, hc]
    · left
      unfold probeTrace
      rw [check_subdomain_eq]
      simp [hu, hc, initState]

/-- A one-event `tested` sequence is safe. -/
theorem traceOK_single : TraceOK [ProbeEvent.tested] := by
  intro p s hps
  cases p with
  | nil => simp [countT, countD, countE]
  | cons a p2 =>
    rw [List.cons_append] at hps
    injection hps with h1 h2
    subst h1
    obtain ⟨hp2, -⟩ := List.append_eq_nil.mp h2.symm
    subst hp2
    simp [countT, countD, countE, List.countP_cons]

/-- A `tested` increment followed by one non-`tested` event is safe. -/
theorem traceOK_tested_then (y : ProbeEvent) (hy : y ≠ ProbeEvent.tested) :
    TraceOK [ProbeEvent.tested, y] := by
  intro p s hps
  cases p with
  | nil => simp [countT, countD, countE]
  | cons a p2 =>
    rw [List.cons_append] at hps
    injection hps with h1 h2
    subst h1
    cases p2 with
    | nil => simp [countT, countD, countE, List.countP_cons]
    | cons b p3 =>
      rw [List.cons_append] at h2
      injection h2 with h3 h4
      subst h3
      obtain ⟨hp3, -⟩ := List.append_eq_nil.mp h4.symm
      subst hp3
      cases y with
      | tested => exact absurd rfl hy
      | discovered r => simp [countT, countD, countE, List.countP_cons]
      | errored => simp [countT, countD, countE, List.countP_cons]

/-- Every probe's update sequence is safe. -/
theorem traceOK_probeTrace (env : ProbeEnv) (subdomain domain : String) :
    TraceOK (probeTrace env subdomain domain) := by
  rcases probeTrace_shape env subdomain domain with h | ⟨r, h⟩ | h <;> rw [h]
  · exact traceOK_single
  · exact traceOK_tested_then _ (by simp)
  · exact traceOK_tested_then _ (by simp)

/-- Every probe's update sequence holds exactly one `tested`
increment. -/
theorem countT_probeTrace (env : ProbeEnv) (subdomain domain : String) :
    countT (probeTrace env subdomain domain) = 1 := by
  rcases probeTrace_shape env subdomain domain with h | ⟨r, h⟩ | h <;>
    rw [h] <;> simp [countT, List.countP_cons]

/-- Replaying the update sequence of a probe against any shared state
yields exactly the state `check_subdomain` leaves behind: the event
model is faithful to the code. -/
theorem applyEvents_probeTrace (env : ProbeEnv) (subdomain domain : String)
    (st : EnumState) :
    applyEvents (probeTrace env subdomain domain) st =
      (check_subdomain env subdomain domain st).1 := by
  unfold probeTrace
  rw [check_subdomain_eq, check_subdomain_eq]
  by_cases hu : unexpectedHit env
  · simp [hu, initState, applyEvents, applyEvent]
  · by_cases hc : (resolveOk env.resolve &&
      (fetchOk env.http || fetchOk env.https)) = true
    · simp [hu, hc, applyEvents, applyEvent]
    · simp [hu, hc, initState, applyEvents, applyEvent]

/-- C5: along every serialization of the lock-protected updates of any
set of probes — that is, at every point during and after a run — the
statistics satisfy `discovered ≤ tested` and `errors ≤ tested`;
moreover every probe's update sequence begins with its `tested`
increment and afterwards increments `discovered` at most once,
`errors` at most once, and `tested` never again. -/
theorem counters_consistent (jobs : List (ProbeEnv × String × String))
    (tr p s : List ProbeEvent)
    (hI : InterleaveN (jobs.map fun j => probeTrace j.1 j.2.1 j.2.2) tr)
    (hps : tr = p ++ s) :
    ((applyEvents p initState).discovered ≤ (applyEvents p initState).tested ∧
      (applyEvents p initState).errors ≤ (applyEvents p initState).tested) ∧
    ∀ env subdomain domain, ∃ rest,
      probeTrace env subdomain domain = ProbeEvent.tested :: rest ∧
      countT rest = 0 ∧ countD rest ≤ 1 ∧ countE rest ≤ 1 := by
  constructor
  · have hOK : TraceOK tr := by
      apply hI.traceOK_many
      intro l hl
      rw [List.mem_map] at hl
      obtain ⟨j, -, rfl⟩ := hl
      exact traceOK_probeTrace _ _ _
    obtain ⟨h1, h2⟩ := hOK p s hps
    rcases applyEvents_counts p initState with ⟨hT, hD, hE⟩
    rw [hT, hD, hE]
    simp only [initState]
    omega
  · intro env subdomain domain
    rcases probeTrace_shape env subdomain domain with h | ⟨r, h⟩ | h <;>
      rw [h]
    · exact ⟨[], rfl, by simp [countT, countD, countE]⟩
    · exact ⟨[ProbeEvent.discovered r], rfl,
        by simp [countT, countD, countE, List.countP_cons]⟩
    · exact ⟨[ProbeEvent.errored], rfl,
        by simp [countT, countD, countE, List.countP_cons]⟩

/-- Witness for `counters_consistent`: a one-candidate run whose probe
fails resolution, serialized as the single possible order, inspected
after its only event. -/
theorem counters_consistent_witness :
    ((applyEvents [ProbeEvent.tested] initState).discovered ≤
        (applyEvents [ProbeEvent.tested] initState).tested ∧
      (applyEvents [ProbeEvent.tested] initState).errors ≤
        (applyEvents [ProbeEvent.tested] initState).tested) ∧
    ∀ env subdomain domain, ∃ rest,
      probeTrace env subdomain domain = ProbeEvent.tested :: rest ∧
      countT rest = 0 ∧ countD rest ≤ 1 ∧ countE rest ≤ 1 :=
  counters_consistent
    [({ resolve := .gaierror, http := .reqError, https := .reqError },
      "www", "example.com")]
    [ProbeEvent.tested] [ProbeEvent.tested] []
    (by
      have hmap :
          ([({ resolve := .gaierror, http := .reqError,
                https := .reqError }, "www", "example.com")].map
            fun j : ProbeEnv × String × String =>
              probeTrace j.1 j.2.1 j.2.2) = [[ProbeEvent.tested]] := by decide
      rw [hmap]
      exact InterleaveN.cons InterleaveN.nil (Interleave.left Interleave.nil))
    rfl

/-- C6: when the pool has drained — the serialized update sequence of a
run over N candidates is complete — the `tested` counter equals N:
every candidate was probed exactly once and none was dropped, whatever
order the probes completed in. -/
theorem run_tested_equals_candidates
    (jobs : List (ProbeEnv × String × String)) (tr : List ProbeEvent)
    (hI : InterleaveN (jobs.map fun j => probeTrace j.1 j.2.1 j.2.2) tr) :
    (applyEvents tr initState).tested = jobs.length := by
  rcases applyEvents_counts tr initState with ⟨hT, -, -⟩
  rw [hT]
  have h2 : countT tr =
      ((jobs.map fun j => probeTrace j.1 j.2.1 j.2.2).map
        fun l => countT l).sum :=
    hI.countP_sum _
  rw [h2, List.map_map]
  have h3 : (List.map ((fun l => countT l) ∘
      fun j : ProbeEnv × String × String =>
        probeTrace j.1 j.2.1 j.2.2) jobs) = jobs.map fun _ => 1 := by
    apply List.map_congr_left
    intro j _
    exact countT_probeTrace j.1 j.2.1 j.2.2
  rw [h3]
  simp [initState, List.map_const', List.sum_replicate]

/-- Witness for `run_tested_equals_candidates`: the same one-candidate
run, fully drained. -/
theorem run_tested_equals_candidates_witness :
    (applyEvents [ProbeEvent.tested] initState).tested =
      ([({ resolve := .gaierror, http := .reqError, https := .reqError },
        "www", "example.com")] :
          List (ProbeEnv × String × String)).length :=
  run_tested_equals_candidates
    [({ resolve := .gaierror, http := .reqError, https := .reqError },
      "www", "example.com")]
    [ProbeEvent.tested]
    (by
      have hmap :
          ([({ resolve := .gaierror, http := .reqError,
                https := .reqError }, "www", "example.com")].map
            fun j : ProbeEnv × String × String =>
              probeTrace j.1 j.2.1 j.2.2) = [[ProbeEvent.tested]] := by decide
      rw [hmap]
      exact InterleaveN.cons InterleaveN.nil (Interleave.left Interleave.nil))

/-- C9: in every pool state reachable during a run over the given
candidate list, never more than `cap` probes are in flight, no
candidate is lost or duplicated across the pending/running/done
classes, and once the pool has drained (nothing pending, nothing
running) every candidate has been probed exactly once. -/
theorem pool_concurrency_bound (cap : Nat) (cands : List String)
    (st : PoolState) (h : PoolReachable cap cands st) :
    st.running.length ≤ cap ∧
    (∀ x, st.pending.count x + st.running.count x + st.done.count x =
      cands.count x) ∧
    (st.pending = [] → st.running = [] →
      ∀ x, st.done.count x = cands.count x) := by
  have main : st.running.length ≤ cap ∧
      ∀ x, st.pending.count x + st.running.count x + st.done.count x =
        cands.count x := by
    unfold PoolReachable at h
    induction h with
    | refl => exact ⟨by simp, fun x => by simp⟩
    | tail h1 h2 ih =>
      obtain ⟨ih1, ih2⟩ := ih
      cases h2 with
      | start x pending running done hlt =>
        constructor
        · simp only [List.length_append, List.length_singleton]
          omega
        · intro y
          have hy := ih2 y
          simp only [List.count_append, List.count_cons,
            List.count_singleton, List.count_nil] at hy ⊢
          omega
      | finish x pending r1 r2 done =>
        constructor
        · have := ih1
          simp only [List.length_append, List.length_cons] at this ⊢
          omega
        · intro y
          have hy := ih2 y
          simp only [List.count_append, List.count_cons,
            List.count_singleton, List.count_nil] at hy ⊢
          omega
  refine ⟨main.1, main.2, ?_⟩
  intro hp hr x
  have hx := main.2 x
  rw [hp, hr] at hx
  simpa using hx

/-- Witness for `pool_concurrency_bound`: a three-candidate run with a
two-worker pool, one scheduling step in. -/
theorem pool_concurrency_bound_witness :
    ({ pending := ["b", "c"], running := ["a"], done := [] } :
        PoolState).running.length ≤ 2 ∧
    (∀ x, (["b", "c"] : List String).count x +
        (["a"] : List String).count x + ([] : List String).count x =
      (["a", "b", "c"] : List String).count x) ∧
    ((["b", "c"] : List String) = [] → (["a"] : List String) = [] →
      ∀ x, ([] : List String).count x =
        (["a", "b", "c"] : List String).count x) :=
  pool_concurrency_bound 2 ["a", "b", "c"]
    { pending := ["b", "c"], running := ["a"], done := [] }
    (Relation.ReflTransGen.single
      (PoolStep.start "a" ["b", "c"] [] [] (by decide)))
